import Mathlib

/-!
Verification of the OCR subsystem of the Judge-Assistant repository
(src/OCR/engine.py, src/OCR/postprocessor.py, src/OCR/schemas.py,
src/OCR/config.py) against its natural-language specification.

Conventions of the shallow embedding:
* Python `float` values (confidences, thresholds) are modelled as rationals.
* Python `str` is modelled as Lean `String`; `len` of a `str` is the number
  of code points, matching `String.length`.
* Python lists are Lean lists; Python sets of strings are modelled as lists
  (only membership and counting are used by the code under verification).
* The module-level configuration constants of src/OCR/config.py are embedded
  as definitions; module-global mutable state (the cached legal dictionary)
  is passed as an explicit argument, and the externally loaded Surya model
  outputs are passed as explicit per-call inputs.
* Fallible calls into the external Surya predictors are modelled with
  `Except String`, an exception being `.error msg`.
-/

/-! ## Data model (src/OCR/schemas.py) -/

/-- Embeds `OCRWord` of src/OCR/schemas.py: a recognized word with its
bounding quadrilateral and confidence. -/
structure OCRWord where
  text : String
  bbox : List (ℚ × ℚ)
  confidence : ℚ
deriving DecidableEq, Repr

/-- Embeds `OCRLine` of src/OCR/schemas.py: a line of text composed of words. -/
structure OCRLine where
  words : List OCRWord
  text : String
  confidence : ℚ
deriving DecidableEq, Repr

/-- Embeds `OCRPageResult` of src/OCR/schemas.py: a full page OCR result. -/
structure OCRPageResult where
  page_number : ℕ
  lines : List OCRLine
  raw_text : String
  confidence : ℚ
  warnings : List String
  has_errors : Bool
deriving DecidableEq, Repr

/-! ## Configuration constants (src/OCR/config.py) -/

def HIGH_CONFIDENCE_THRESHOLD : ℚ := 85 / 100

def MEDIUM_CONFIDENCE_THRESHOLD : ℚ := 60 / 100

def ENABLE_DICTIONARY_CORRECTION : Bool := true

def MAX_LEVENSHTEIN_DISTANCE : ℕ := 2

def NORMALIZE_DIGITS : String := "arabic_indic"

/-! ## Python string primitives

The postprocessor uses `str.strip` / `str.lstrip` / `str.rstrip` and the
regular-expression class `\s`.  Both are driven by the Python notion of
whitespace for `str` objects, embedded here as `pyIsSpace`. -/

/-- Whitespace for Python `str.strip()` and the Unicode regex class `\s`:
ASCII whitespace and separators, the C1 information separators, NEL, NBSP,
OGHAM SPACE MARK, the U+2000 range, LINE/PARAGRAPH SEPARATOR, NARROW NBSP,
MMSP and IDEOGRAPHIC SPACE. -/
def pyIsSpace (c : Char) : Bool :=
  let n := c.toNat
  decide (n = 0x20 ∨ (0x9 ≤ n ∧ n ≤ 0xd) ∨ (0x1c ≤ n ∧ n ≤ 0x1f) ∨ n = 0x85 ∨
    n = 0xa0 ∨ n = 0x1680 ∨ (0x2000 ≤ n ∧ n ≤ 0x200a) ∨ n = 0x2028 ∨
    n = 0x2029 ∨ n = 0x202f ∨ n = 0x205f ∨ n = 0x3000)

/-- Embeds Python `str.lstrip()` (no argument): drop leading whitespace. -/
def pyLstrip (s : String) : String :=
  String.mk (s.data.dropWhile (fun c => pyIsSpace c))

/-- Embeds Python `str.rstrip()` (no argument): drop trailing whitespace. -/
def pyRstrip (s : String) : String :=
  String.mk (((s.data.reverse).dropWhile (fun c => pyIsSpace c)).reverse)

/-- Embeds Python `str.strip()` (no argument): drop whitespace at both ends. -/
def pyStrip (s : String) : String :=
  pyLstrip (pyRstrip s)

/-! ## Page confidence (src/OCR/engine.py, `_compute_page_confidence`) -/

/-- Embeds `_compute_page_confidence` of src/OCR/engine.py: page-level
confidence as the character-length-weighted average of line confidences. -/
def _compute_page_confidence (lines : List OCRLine) : ℚ :=
  if lines = [] then 0
  else
    let total_chars := (lines.map (fun l => l.text.length)).sum
    if total_chars = 0 then 0
    else
      let weighted_sum := (lines.map (fun l => l.confidence * (l.text.length : ℚ))).sum
      weighted_sum / total_chars

/-! ## Recognition Adapter (src/OCR/engine.py, `SuryaOCREngine`)

The Surya predictors are external models.  Their per-call outputs (or the
exception a call raises) are the inputs of the embedded functions. -/

/-- Embeds a Surya detection box object: `box.bbox` is `[x1, y1, x2, y2]`. -/
structure SuryaBox where
  bbox : List ℚ
deriving DecidableEq, Repr

/-- Embeds a Surya `DetectionResult`: the list of detected line boxes. -/
structure SuryaDetectionResult where
  bboxes : List SuryaBox
deriving DecidableEq, Repr

/-- Embeds a Surya recognition `text_line`.  `confidence` is `none` when the
attribute is absent (the code reads it with `getattr(text_line,
"confidence", 0.0)`). -/
structure SuryaTextLine where
  text : String
  confidence : Option ℚ
  bbox : List ℚ
deriving DecidableEq, Repr

/-- Embeds a Surya `RecognitionResult`: the recognized text lines. -/
structure SuryaRecognitionResult where
  text_lines : List SuryaTextLine
deriving DecidableEq, Repr

/-- Behavior of the two external Surya calls made for one image by
`SuryaOCREngine._process_single_image`: the value returned by
`batch_text_detection([image], ...)` and by `batch_recognition([image], ...)`,
or the exception message a call raises. -/
structure SuryaPageBehavior where
  det : Except String (List SuryaDetectionResult)
  recog : Except String (List SuryaRecognitionResult)
deriving Repr

/-- Corner points `[(x1,y1),(x2,y1),(x2,y2),(x1,y2)]` from `[x1,y1,x2,y2]`,
with the degenerate zero box for a malformed bbox, as in
`_process_single_image` (src/OCR/engine.py lines 240-249). -/
def cornerPointsOf (bbox : List ℚ) : List (ℚ × ℚ) :=
  if bbox.length = 4 then
    let x1 := bbox.getD 0 0
    let y1 := bbox.getD 1 0
    let x2 := bbox.getD 2 0
    let y2 := bbox.getD 3 0
    [(x1, y1), (x2, y1), (x2, y2), (x1, y2)]
  else
    [(0, 0), (0, 0), (0, 0), (0, 0)]

/-- Line-building loop of `_process_single_image` (src/OCR/engine.py lines
231-270): strip each recognized text line, skip empty ones, build one
`OCRWord`/`OCRLine` per kept text line, and flag low-confidence lines with a
warning.  Returns the built lines and the accumulated warnings.  The exact
warning text interpolates the confidence with Python float formatting, which
is elided here; only its presence is modelled. -/
def buildLinesAndWarnings (text_lines : List SuryaTextLine) :
    List OCRLine × List String :=
  text_lines.foldl
    (fun acc tl =>
      let text := pyStrip tl.text
      if text = "" then acc
      else
        let confidence := tl.confidence.getD 0
        let word : OCRWord := ⟨text, cornerPointsOf tl.bbox, confidence⟩
        let line : OCRLine := ⟨[word], text, confidence⟩
        let warnings :=
          if confidence < MEDIUM_CONFIDENCE_THRESHOLD then
            acc.2 ++ ["Low confidence for: " ++ String.mk (text.data.take 50)]
          else acc.2
        (acc.1 ++ [line], warnings))
    ([], [])

/-- Embeds `SuryaOCREngine._process_single_image` (src/OCR/engine.py lines
186-285).  An exception raised by either external call propagates as
`.error`; otherwise the page result is built as in the source. -/
def _process_single_image (b : SuryaPageBehavior) (page_number : ℕ) :
    Except String OCRPageResult :=
  match b.det with
  | .error e => .error e
  | .ok det_results =>
    match det_results with
    | [] =>
      .ok ⟨page_number, [], "", 0, ["No text detected on page"], false⟩
    | d :: _ =>
      if d.bboxes = [] then
        .ok ⟨page_number, [], "", 0, ["No text detected on page"], false⟩
      else
        match b.recog with
        | .error e => .error e
        | .ok rec_results =>
          match rec_results with
          | [] =>
            .ok ⟨page_number, [], "", 0, ["Recognition produced no text"], false⟩
          | r :: _ =>
            if r.text_lines = [] then
              .ok ⟨page_number, [], "", 0, ["Recognition produced no text"], false⟩
            else
              let lw := buildLinesAndWarnings r.text_lines
              let raw_text := String.intercalate "\n" (lw.1.map (fun l => l.text))
              .ok ⟨page_number, lw.1, raw_text, _compute_page_confidence lw.1,
                    lw.2, false⟩

/-- Embeds `SuryaOCREngine._process_batch` (src/OCR/engine.py lines 154-184):
one page per image, pages numbered `page_offset + i + 1`; an exception from
`_process_single_image` is caught per page and converted into an error page
with `has_errors = true` and a warning carrying the error text. -/
def _process_batch (behaviors : List SuryaPageBehavior) (page_offset : ℕ) :
    List OCRPageResult :=
  behaviors.enum.map (fun p =>
    let page_num := page_offset + p.1 + 1
    match _process_single_image p.2 page_num with
    | .ok r => r
    | .error e => ⟨page_num, [], "", 0, ["OCR engine error: " ++ e], true⟩)

/-- Line-building loop of `SuryaOCREngine.process` (src/OCR/engine.py lines
102-127): same mapping but with no low-confidence warnings and with corner
points taken directly from `text_line.bbox`. -/
def buildProcessLines (text_lines : List SuryaTextLine) : List OCRLine :=
  text_lines.foldl
    (fun acc tl =>
      let text := pyStrip tl.text
      if text = "" then acc
      else
        let confidence := tl.confidence.getD 0
        let x1 := tl.bbox.getD 0 0
        let y1 := tl.bbox.getD 1 0
        let x2 := tl.bbox.getD 2 0
        let y2 := tl.bbox.getD 3 0
        let word : OCRWord := ⟨text, [(x1, y1), (x2, y1), (x2, y2), (x1, y2)], confidence⟩
        acc ++ [⟨[word], text, confidence⟩])
    []

/-- Embeds `SuryaOCREngine.process` (src/OCR/engine.py lines 76-144), the
entry point reached from `run_ocr`.  It calls the detection predictor on the
whole batch, then the recognition predictor, then maps each recognition
result to a page.  There is no try/except anywhere in it: an exception from
either predictor propagates, and empty pages produce no warning. -/
def SuryaOCREngine_process
    (det : Except String (List SuryaDetectionResult))
    (rec : Except String (List SuryaRecognitionResult)) :
    Except String (List OCRPageResult) :=
  match det with
  | .error e => .error e
  | .ok _ =>
    match rec with
    | .error e => .error e
    | .ok rec_results =>
      .ok (rec_results.enum.map (fun p =>
        let lines := buildProcessLines p.2.text_lines
        let raw_text := String.intercalate "\n" (lines.map (fun l => l.text))
        ⟨p.1 + 1, lines, raw_text, _compute_page_confidence lines, [], false⟩))

/-! ## Levenshtein distance (src/OCR/postprocessor.py, `_levenshtein_distance`)

The source first tries the optional external python-Levenshtein library and
otherwise runs its own dynamic-programming fallback; the fallback (lines
310-328) is the repository's algorithm and is embedded here. -/

/-- Reference recursive definition of the classic Levenshtein distance:
minimum number of cost-1 single-character insertions, deletions and
substitutions (the Wagner-Fischer recurrence). -/
def levRef : List Char → List Char → ℕ
  | [], t => t.length
  | _ :: s, [] => s.length + 1
  | a :: s, b :: t =>
    min (levRef s (b :: t) + 1)
      (min (levRef (a :: s) t + 1) (levRef s t + (if a = b then 0 else 1)))
termination_by s t => s.length + t.length

/-- Inner loop of the DP fallback (src/OCR/postprocessor.py lines 319-326):
given the previous row (walked pairwise) and the last value `d` of the
current row, produce the rest of the current row.  `v` is
`min(insertions, deletions, substitutions)` exactly as in the source. -/
def nextRowAux (c1 : Char) : List Char → List ℕ → ℕ → List ℕ
  | [], _, _ => []
  | _ :: _, [], _ => []
  | _ :: _, [_], _ => []
  | c2 :: s2, p0 :: p1 :: ps, d =>
    let v := min (p1 + 1) (min (d + 1) (p0 + (if c1 = c2 then 0 else 1)))
    v :: nextRowAux c1 s2 (p1 :: ps) v

/-- One iteration of the outer loop: `current_row = [i + 1]` extended by the
inner loop over `s2`. -/
def nextRow (c1 : Char) (s2 : List Char) (i : ℕ) (prev : List ℕ) : List ℕ :=
  (i + 1) :: nextRowAux c1 s2 prev (i + 1)

/-- Outer loop of the DP fallback over the characters of `s1` with their
indices, threading the previous row. -/
def levLoop (s2 : List Char) : List Char → ℕ → List ℕ → List ℕ
  | [], _, prev => prev
  | c1 :: s1, i, prev => levLoop s2 s1 (i + 1) (nextRow c1 s2 i prev)

/-- DP core of `_levenshtein_distance`: `previous_row = range(len(s2) + 1)`,
then the loop, then the last entry of the final row; empty `s2` returns
`len(s1)` early. -/
def levDP (s1 s2 : List Char) : ℕ :=
  if s2.length = 0 then s1.length
  else (levLoop s2 s1 0 (List.range (s2.length + 1))).getLastD 0

/-- Embeds `_levenshtein_distance` of src/OCR/postprocessor.py: swap the
arguments when `len(s1) < len(s2)` (the recursive call immediately falls
through to the DP on the swapped pair), then run the DP. -/
def _levenshtein_distance (s1 s2 : String) : ℕ :=
  if s1.length < s2.length then levDP s2.data s1.data else levDP s1.data s2.data

/-- Tail of the row of Levenshtein values for the consumed prefix `pre`
against the successive prefixes of `seen ++ rem` extending `seen`. -/
def rowTail (pre : List Char) : List Char → List Char → List ℕ
  | _, [] => []
  | seen, c2 :: rest => levRef pre (seen ++ [c2]) :: rowTail pre (seen ++ [c2]) rest

/-- Full row of Levenshtein values: distances from `pre` to `seen` and to each
longer prefix of `seen ++ rem`. -/
def rowSpec (pre seen rem : List Char) : List ℕ :=
  levRef pre seen :: rowTail pre seen rem

/-! ## Arabic Unicode normalization (src/OCR/postprocessor.py, `normalize_arabic`)

The source performs a chain of `str.replace` calls and then
`unicodedata.normalize("NFC", text)`.  A single-character `str.replace`
with an empty replacement is a filter, and with a single-character
replacement is a map.  The final NFC step is the Unicode canonical
composition; it is modelled here from the Unicode character database
restricted to the Arabic block: the canonical decompositions and primary
composites of U+0622-U+0626, U+06C0, U+06C2, U+06D3, and the canonical
combining classes of U+064B-U+065F and U+0670.  All other characters are
treated as inert starters (combining class 0, no decomposition), which is
exact for the characters this code path manipulates. -/

/-- Embeds Python `text.replace(a, "")` for a single character `a`. -/
def removeAll (a : Char) (l : List Char) : List Char :=
  l.filter (fun d => d != a)

/-- Embeds Python `text.replace(a, b)` for single characters. -/
def replaceAll (a b : Char) (l : List Char) : List Char :=
  l.map (fun d => if d = a then b else d)

/-- Canonical decomposition of the decomposable Arabic-block characters. -/
def canonDecomp (c : Char) : List Char :=
  if c = 'آ' then ['ا', 'ٓ']
  else if c = 'أ' then ['ا', 'ٔ']
  else if c = 'ؤ' then ['و', 'ٔ']
  else if c = 'إ' then ['ا', 'ٕ']
  else if c = 'ئ' then ['ي', 'ٔ']
  else if c = 'ۀ' then ['ە', 'ٔ']
  else if c = 'ۂ' then ['ہ', 'ٔ']
  else if c = 'ۓ' then ['ے', 'ٔ']
  else [c]

/-- Canonical combining classes of the Arabic-block combining marks. -/
def ccc (c : Char) : ℕ :=
  let n := c.toNat
  if n = 0x64b then 27 else if n = 0x64c then 28 else if n = 0x64d then 29
  else if n = 0x64e then 30 else if n = 0x64f then 31 else if n = 0x650 then 32
  else if n = 0x651 then 33 else if n = 0x652 then 34
  else if n = 0x653 then 230 else if n = 0x654 then 230 else if n = 0x655 then 220
  else if n = 0x656 then 220 else if n = 0x657 then 230 else if n = 0x658 then 230
  else if n = 0x659 then 230 else if n = 0x65a then 230 else if n = 0x65b then 230
  else if n = 0x65c then 220 else if n = 0x65d then 230 else if n = 0x65e then 230
  else if n = 0x65f then 220 else if n = 0x670 then 35 else 0

/-- Primary composites of the Arabic block. -/
def composePair (s c : Char) : Option Char :=
  if s = 'ا' ∧ c = 'ٓ' then some 'آ'
  else if s = 'ا' ∧ c = 'ٔ' then some 'أ'
  else if s = 'و' ∧ c = 'ٔ' then some 'ؤ'
  else if s = 'ا' ∧ c = 'ٕ' then some 'إ'
  else if s = 'ي' ∧ c = 'ٔ' then some 'ئ'
  else if s = 'ە' ∧ c = 'ٔ' then some 'ۀ'
  else if s = 'ہ' ∧ c = 'ٔ' then some 'ۂ'
  else if s = 'ے' ∧ c = 'ٔ' then some 'ۓ'
  else none

/-- Stable insertion of a combining mark into the reversed output: the mark
moves left past characters of strictly greater combining class. -/
def insertRev (c : Char) : List Char → List Char
  | [] => [c]
  | d :: rest => if ccc c < ccc d then d :: insertRev c rest else c :: d :: rest

/-- Canonical ordering: starters stay put, combining marks are stably sorted
by combining class. -/
def canonicalOrder (l : List Char) : List Char :=
  (l.foldl (fun acc c => if ccc c = 0 then c :: acc else insertRev c acc) []).reverse

/-- Canonical composition pass on canonically ordered text: `st` is the last
starter (already combined with preceding marks), `pend` the not-yet-blocked
marks seen since it. -/
def composeAux : Option Char → List Char → List Char → List Char
  | none, pend, [] => pend
  | some s, pend, [] => s :: pend
  | none, pend, c :: rest =>
    if ccc c = 0 then pend ++ composeAux (some c) [] rest
    else composeAux none (pend ++ [c]) rest
  | some s, pend, c :: rest =>
    if ccc c = 0 then (s :: pend) ++ composeAux (some c) [] rest
    else
      if pend = [] ∨ ccc (pend.getLastD c) < ccc c then
        match composePair s c with
        | some s2 => composeAux (some s2) pend rest
        | none => composeAux (some s) (pend ++ [c]) rest
      else composeAux (some s) (pend ++ [c]) rest

/-- Model of `unicodedata.normalize("NFC", text)` on the modelled character
set: canonical decomposition, canonical ordering, canonical composition. -/
def nfc (l : List Char) : List Char :=
  composeAux none [] (canonicalOrder ((l.map canonDecomp).flatten))

/-- The replace chain of `normalize_arabic` (src/OCR/postprocessor.py lines
215-230): strip zero-width and directional characters, fold the Alef
variants to bare Alef, remove tatweel. -/
def stripAndFold (l : List Char) : List Char :=
  let l := removeAll '\u200b' l
  let l := removeAll '\u200c' l
  let l := removeAll '\u200d' l
  let l := removeAll '\u200e' l
  let l := removeAll '\u200f' l
  let l := removeAll '\ufeff' l
  let l := replaceAll 'آ' 'ا' l
  let l := replaceAll 'أ' 'ا' l
  let l := replaceAll 'إ' 'ا' l
  let l := replaceAll 'ٱ' 'ا' l
  let l := removeAll 'ـ' l
  l

/-- Embeds `normalize_arabic` of src/OCR/postprocessor.py: empty text is
returned as-is, otherwise the replace chain runs and the result is
NFC-normalized. -/
def normalize_arabic (text : String) : String :=
  if text = "" then text
  else String.mk (nfc (stripAndFold text.data))

/-- A character is NFC-inert when it has combining class 0 and no canonical
decomposition: on strings of such characters the modelled NFC is the
identity. -/
def nfcInert (c : Char) : Bool :=
  (ccc c == 0) && (canonDecomp c == [c])

/-! ## Digit normalization (src/OCR/postprocessor.py, `normalize_digits`)

`str.maketrans`/`str.translate` with a ten-entry character table maps each
table character and leaves every other character unchanged; the two tables
are embedded as character functions, and the configuration value
`config.NORMALIZE_DIGITS` read inside the function is passed explicitly as
the `mode` argument. -/

def westernDigitChars : List Char := ['0', '1', '2', '3', '4', '5', '6', '7', '8', '9']

def arabicIndicDigitChars : List Char :=
  ['٠', '١', '٢', '٣', '٤', '٥', '٦', '٧', '٨', '٩']

/-- Embeds the `_WESTERN_TO_ARABIC_INDIC` translation table. -/
def _WESTERN_TO_ARABIC_INDIC (c : Char) : Char :=
  if c = '0' then '٠' else if c = '1' then '١' else if c = '2' then '٢'
  else if c = '3' then '٣' else if c = '4' then '٤' else if c = '5' then '٥'
  else if c = '6' then '٦' else if c = '7' then '٧' else if c = '8' then '٨'
  else if c = '9' then '٩' else c

/-- Embeds the `_ARABIC_INDIC_TO_WESTERN` translation table. -/
def _ARABIC_INDIC_TO_WESTERN (c : Char) : Char :=
  if c = '٠' then '0' else if c = '١' then '1' else if c = '٢' then '2'
  else if c = '٣' then '3' else if c = '٤' then '4' else if c = '٥' then '5'
  else if c = '٦' then '6' else if c = '٧' then '7' else if c = '٨' then '8'
  else if c = '٩' then '9' else c

/-- Embeds `normalize_digits` of src/OCR/postprocessor.py. -/
def normalize_digits (mode : String) (text : String) : String :=
  if mode = "arabic_indic" then String.mk (text.data.map _WESTERN_TO_ARABIC_INDIC)
  else if mode = "western" then String.mk (text.data.map _ARABIC_INDIC_TO_WESTERN)
  else text

/-! ## Dictionary correction (src/OCR/postprocessor.py, `dictionary_correct`)

The legal dictionary is loaded from disk and cached in module state; it is
passed here as an explicit list (iteration order of the Python set is the
list order; the claims proved below do not depend on it). -/

/-- Best-match loop of `dictionary_correct` (src/OCR/postprocessor.py lines
275-282): scan the dictionary keeping the first word at each new strictly
smaller distance, starting from `MAX_LEVENSHTEIN_DISTANCE + 1`. -/
def findBestMatch (normalized : String) (dictionary : List String) :
    Option String × ℕ :=
  dictionary.foldl
    (fun acc dict_word =>
      if _levenshtein_distance normalized dict_word < acc.2 then
        (some dict_word, _levenshtein_distance normalized dict_word)
      else acc)
    (none, MAX_LEVENSHTEIN_DISTANCE + 1)

/-- Embeds `dictionary_correct` of src/OCR/postprocessor.py.  An empty
dictionary returns the word; a normalized form already in the dictionary is
returned; otherwise the best match is returned when it is truthy (non-empty)
and within `MAX_LEVENSHTEIN_DISTANCE`, else the original word. -/
def dictionary_correct (dictionary : List String) (word : String) : String :=
  if dictionary = [] then word
  else
    let normalized := normalize_arabic word
    if normalized ∈ dictionary then normalized
    else
      match findBestMatch normalized dictionary with
      | (some best_match, best_distance) =>
        if best_match ≠ "" ∧ best_distance ≤ MAX_LEVENSHTEIN_DISTANCE then
          best_match
        else word
      | (none, _) => word

/-! ## Structural line merge (src/OCR/postprocessor.py, `merge_split_lines`) -/

/-- The fixed set of joining (connecting) Arabic letters of
src/OCR/postprocessor.py lines 380-384. -/
def connecting_chars : List Char :=
  ['ب', 'ت', 'ث', 'ج', 'ح', 'خ', 'س', 'ش', 'ص', 'ض',
   'ط', 'ظ', 'ع', 'غ', 'ف', 'ق', 'ك', 'ل', 'م', 'ن',
   'ه', 'ي']

/-- Merge condition of the loop body: the rstripped accumulated text and the
lstripped next text are non-empty and the last character of the former is a
connecting letter. -/
def shouldMerge (prev curr : OCRLine) : Bool :=
  decide (pyRstrip prev.text ≠ "" ∧ pyLstrip curr.text ≠ "" ∧
    (pyRstrip prev.text).data.getLastD ' ' ∈ connecting_chars)

/-- The merged line: concatenated words, rstripped text of the first line
concatenated with the lstripped text of the second with no inserted space,
and the arithmetic mean of the two confidences. -/
def mergedLine (prev curr : OCRLine) : OCRLine :=
  ⟨prev.words ++ curr.words, pyRstrip prev.text ++ pyLstrip curr.text,
    (prev.confidence + curr.confidence) / 2⟩

/-- Loop of `merge_split_lines`: `cur` is `merged[-1]`, repeatedly either
absorbed into or finalized before the next line. -/
def mergeAux : OCRLine → List OCRLine → List OCRLine
  | cur, [] => [cur]
  | cur, l :: ls =>
    if shouldMerge cur l then mergeAux (mergedLine cur l) ls
    else cur :: mergeAux l ls

/-- Embeds `merge_split_lines` of src/OCR/postprocessor.py lines 369-406. -/
def merge_split_lines (lines : List OCRLine) : List OCRLine :=
  match lines with
  | [] => []
  | [l] => [l]
  | l :: ls => mergeAux l ls

/-! ## Whitespace and pattern repair (src/OCR/postprocessor.py,
`fix_whitespace`, `fix_intra_word_spaces`, `validate_legal_patterns`)

The three functions are `re.sub` calls with fixed patterns; they are
embedded as direct scanners realizing the same leftmost, non-overlapping
replacement semantics.  Recursions that consume a data-dependent number of
characters take a fuel argument initialized with the input length, which
every step strictly decreases by at least one, so the fuel never runs out. -/

/-- Punctuation of the pattern removing spaces before punctuation. -/
def punctNoSpaceBefore : List Char := ['،', '؛', '.', ',', ':', '؟', '!']

/-- Embeds the substitution of one-or-more spaces/tabs by a single space:
the flag records whether the scanner is inside an already-emitted run. -/
def collapseST : Bool → List Char → List Char
  | _, [] => []
  | inRun, c :: rest =>
    if c = ' ' ∨ c = '\t' then
      if inRun then collapseST true rest else ' ' :: collapseST true rest
    else c :: collapseST false rest

/-- Embeds the removal of whitespace runs directly preceding the listed
punctuation: `pend` is the pending not-yet-emitted whitespace run. -/
def removeWsBeforePunct : List Char → List Char → List Char
  | pend, [] => pend
  | pend, c :: rest =>
    if pyIsSpace c then removeWsBeforePunct (pend ++ [c]) rest
    else if c ∈ punctNoSpaceBefore then c :: removeWsBeforePunct [] rest
    else pend ++ (c :: removeWsBeforePunct [] rest)

/-- Embeds `fix_whitespace` of src/OCR/postprocessor.py lines 331-348:
collapse space/tab runs, drop whitespace before Arabic punctuation, strip. -/
def fix_whitespace (text : String) : String :=
  pyStrip (String.mk (removeWsBeforePunct [] (collapseST false text.data)))

/-- Characters of the Arabic block `[؀-ۿ]`. -/
def isArabicBlock (c : Char) : Bool :=
  decide (0x600 ≤ c.toNat ∧ c.toNat ≤ 0x6ff)

/-- Parse the continuation of an alternating run: pairs of (whitespace run,
single Arabic letter), with the unconsumed remainder. -/
def parseMore (fuel : ℕ) (l : List Char) : List (List Char × Char) × List Char :=
  match fuel with
  | 0 => ([], l)
  | fuel + 1 =>
    let ws := l.takeWhile pyIsSpace
    if ws = [] then ([], l)
    else
      match l.dropWhile pyIsSpace with
      | [] => ([], l)
      | d :: rest =>
        if isArabicBlock d then
          let p := parseMore fuel rest
          ((ws, d) :: p.1, p.2)
        else ([], l)

/-- Scanner for the intra-word-space pattern: a match can start where the
previous character is whitespace or the string starts (the lookbehind), runs
over single Arabic letters separated by whitespace, and must be followed by
whitespace or the end (the lookahead) -- when the lookahead fails the
greedy match backtracks by exactly one letter. -/
def fiwsAux (fuel : ℕ) (boundary : Bool) (l : List Char) : List Char :=
  match fuel with
  | 0 => l
  | fuel + 1 =>
    match l with
    | [] => []
    | c :: rest =>
      if boundary && isArabicBlock c then
        let p := parseMore rest.length rest
        let segs := (([], c) :: p.1 : List (List Char × Char))
        let lookOk := match p.2 with
          | [] => true
          | d :: _ => pyIsSpace d
        let m := if lookOk then segs.length else segs.length - 1
        if 3 ≤ m then
          if lookOk then
            (segs.map (fun s => s.2)) ++ fiwsAux fuel false p.2
          else
            ((segs.take m).map (fun s => s.2)) ++
              fiwsAux fuel false
                ((segs.getLastD ([], c)).1 ++ [(segs.getLastD ([], c)).2] ++ p.2)
        else c :: fiwsAux fuel (pyIsSpace c) rest
      else c :: fiwsAux fuel (pyIsSpace c) rest

/-- Embeds `fix_intra_word_spaces` of src/OCR/postprocessor.py lines 351-366. -/
def fix_intra_word_spaces (text : String) : String :=
  String.mk (fiwsAux text.data.length true text.data)

/-- Match one fixed pattern of letters each separated by one-or-more
whitespace characters; returns the remainder on success. -/
def matchSpaced : List Char → List Char → Option (List Char)
  | [], l => some l
  | [p], l =>
    match l with
    | c :: r => if c = p then some r else none
    | [] => none
  | p :: ps, l =>
    match l with
    | c :: r =>
      if c = p then
        if r.takeWhile pyIsSpace = [] then none
        else matchSpaced ps (r.dropWhile pyIsSpace)
      else none
    | [] => none

/-- Leftmost non-overlapping substitution of a spaced-letter pattern. -/
def subSpaced (fuel : ℕ) (pat repl : List Char) (l : List Char) : List Char :=
  match fuel with
  | 0 => l
  | fuel + 1 =>
    match l with
    | [] => []
    | c :: rest =>
      match matchSpaced pat (c :: rest) with
      | some r => repl ++ subSpaced fuel pat repl r
      | none => c :: subSpaced fuel pat repl rest

/-- Embeds `validate_legal_patterns` of src/OCR/postprocessor.py lines
409-430: fix the four known space-broken legal terms. -/
def validate_legal_patterns (text : String) : String :=
  let l := text.data
  let l := subSpaced l.length ("مادة").data ("مادة").data l
  let l := subSpaced l.length ("محكمة").data ("محكمة").data l
  let l := subSpaced l.length ("المدعي").data ("المدعي").data l
  let l := subSpaced l.length ("المدعىعليه").data ("المدعى عليه").data l
  String.mk l

/-! ## Per-page correction chain (src/OCR/postprocessor.py, `postprocess_page`) -/

/-- Embeds `postprocess_page` of src/OCR/postprocessor.py lines 69-131: per
word normalization, digit normalization and conditional dictionary
correction; per line text reassembly, whitespace/pattern repair; then the
structural line merge, rebuilt raw text, and a result carrying over
page_number, confidence, warnings and has_errors.  The cached legal
dictionary and the `config` values read inside are passed explicitly. -/
def postprocess_page (dictionary : List String) (page_result : OCRPageResult) :
    OCRPageResult :=
  let corrected_lines := page_result.lines.map (fun line =>
    let corrected_words := line.words.map (fun word =>
      let t := normalize_arabic word.text
      let t := normalize_digits NORMALIZE_DIGITS t
      let t :=
        if ENABLE_DICTIONARY_CORRECTION = true ∧
            MEDIUM_CONFIDENCE_THRESHOLD ≤ word.confidence ∧
            word.confidence < HIGH_CONFIDENCE_THRESHOLD then
          dictionary_correct dictionary t
        else t
      (⟨t, word.bbox, word.confidence⟩ : OCRWord))
    let line_text := String.intercalate " " (corrected_words.map (fun w => w.text))
    let line_text := fix_whitespace line_text
    let line_text := fix_intra_word_spaces line_text
    let line_text := validate_legal_patterns line_text
    (⟨corrected_words, line_text, line.confidence⟩ : OCRLine))
  let corrected_lines := merge_split_lines corrected_lines
  let raw_text := String.intercalate "\n" (corrected_lines.map (fun l => l.text))
  ⟨page_result.page_number, corrected_lines, raw_text, page_result.confidence,
    page_result.warnings, page_result.has_errors⟩

/-! ## Cross-page header/footer removal (src/OCR/postprocessor.py,
`postprocess_document_pages`) -/

/-- Stripped first-line texts of the pages that have lines (lines 147-150). -/
def firstLines (pages : List OCRPageResult) : List String :=
  pages.filterMap (fun page => page.lines.head?.map (fun l => pyStrip l.text))

/-- Stripped last-line texts of the pages that have lines. -/
def lastLines (pages : List OCRPageResult) : List String :=
  pages.filterMap (fun page => page.lines.getLast?.map (fun l => pyStrip l.text))

/-- Membership test of the repeated-value sets (lines 152-164): the value
occurs on strictly more than `len(pages) * 0.5` pages and is non-empty. -/
def isRepeatedIn (occurrences : List String) (total : ℕ) (t : String) : Bool :=
  decide (((occurrences.count t : ℚ) > (total : ℚ) / 2) ∧ t ≠ "")

/-- Membership in `repeated_headers`. -/
def repeatedHeader (pages : List OCRPageResult) (t : String) : Bool :=
  isRepeatedIn (firstLines pages) pages.length t

/-- Membership in `repeated_footers`. -/
def repeatedFooter (pages : List OCRPageResult) (t : String) : Bool :=
  isRepeatedIn (lastLines pages) pages.length t

/-- Header removal of one page (lines 179-181): drop the first line when its
stripped text is a repeated header. -/
def removeHeader (isHdr : String → Bool) (lines : List OCRLine) : List OCRLine :=
  match lines with
  | [] => []
  | l :: rest => if isHdr (pyStrip l.text) then rest else l :: rest

/-- Footer removal of one page (lines 183-185): drop the last line when its
stripped text is a repeated footer. -/
def removeFooter (isFtr : String → Bool) (lines : List OCRLine) : List OCRLine :=
  match lines.getLast? with
  | none => lines
  | some l => if isFtr (pyStrip l.text) then lines.dropLast else lines

/-- Embeds `postprocess_document_pages` of src/OCR/postprocessor.py lines
134-199: documents with fewer than 3 pages are returned unchanged; when no
repeated header or footer exists the page list is returned unchanged;
otherwise each page loses its repeated header/footer and gets a rebuilt
raw_text. -/
def postprocess_document_pages (pages : List OCRPageResult) :
    List OCRPageResult :=
  if pages.length < 3 then pages
  else
    if (firstLines pages).any (repeatedHeader pages) = false ∧
        (lastLines pages).any (repeatedFooter pages) = false then pages
    else
      pages.map (fun page =>
        let lines := removeFooter (repeatedFooter pages)
          (removeHeader (repeatedHeader pages) page.lines)
        ⟨page.page_number, lines,
          String.intercalate "\n" (lines.map (fun l => l.text)),
          page.confidence, page.warnings, page.has_errors⟩)

/-- Concrete three-page document with a repeated header line used by the C5
witness. -/
def examplePagesC5 : List OCRPageResult :=
  [⟨1, [⟨[], "A", 1⟩, ⟨[], "B", 1⟩], "", 0, [], false⟩,
   ⟨2, [⟨[], "A", 1⟩, ⟨[], "C", 1⟩], "", 0, [], false⟩,
   ⟨3, [⟨[], "A", 1⟩, ⟨[], "D", 1⟩], "", 0, [], false⟩]

/-- Concrete three-page document whose first lines strip to the empty
string, used by the C10 witness. -/
def examplePagesC10 : List OCRPageResult :=
  [⟨1, [⟨[], " ", 1⟩, ⟨[], "B", 1⟩], "", 0, [], false⟩,
   ⟨2, [⟨[], " ", 1⟩, ⟨[], "C", 1⟩], "", 0, [], false⟩,
   ⟨3, [⟨[], " ", 1⟩, ⟨[], "D", 1⟩], "", 0, [], false⟩]

/-! ## Lemmas and claim theorems -/

lemma levRef_nil_left (t : List Char) : levRef [] t = t.length := by
  simp [levRef]

lemma levRef_nil_right (s : List Char) : levRef s [] = s.length := by
  cases s <;> simp [levRef]

/-- Exchange identity of min-plus row/column grouping used by the
Wagner-Fischer step. -/
lemma minGrid (cab cad A1 A2 A3 A4 A5 A6 A7 A8 A9 : ℕ) :
    min (min (A1 + 1) (min (A2 + 1) (A3 + cab)) + 1)
      (min (min (A4 + 1) (min (A5 + 1) (A6 + cab)) + 1)
        (min (A7 + 1) (min (A8 + 1) (A9 + cab)) + cad)) =
    min (min (A1 + 1) (min (A4 + 1) (A7 + cad)) + 1)
      (min (min (A2 + 1) (min (A5 + 1) (A8 + cad)) + 1)
        (min (A3 + 1) (min (A6 + 1) (A9 + cad)) + cab)) := by
  refine le_antisymm ?_ ?_
  · conv_rhs => simp only [← min_add_add_right]
    refine le_min (le_min ?_ (le_min ?_ ?_))
      (le_min (le_min ?_ (le_min ?_ ?_)) (le_min ?_ (le_min ?_ ?_))) <;> omega
  · conv_rhs => simp only [← min_add_add_right]
    refine le_min (le_min ?_ (le_min ?_ ?_))
      (le_min (le_min ?_ (le_min ?_ ?_)) (le_min ?_ (le_min ?_ ?_))) <;> omega

/-- Last-character form of the Wagner-Fischer recurrence, the invariant step
that the row-by-row DP realizes. -/
lemma levRef_append (a b : Char) :
    ∀ (n : ℕ) (s t : List Char), s.length + t.length ≤ n →
      levRef (s ++ [a]) (t ++ [b]) =
        min (levRef s (t ++ [b]) + 1)
          (min (levRef (s ++ [a]) t + 1)
            (levRef s t + (if a = b then 0 else 1))) := by
  intro n
  induction n with
  | zero =>
    intro s t h
    have hs : s = [] := List.length_eq_zero.mp (by omega)
    have ht : t = [] := List.length_eq_zero.mp (by omega)
    subst hs; subst ht
    simp [levRef]
  | succ n ih =>
    intro s t h
    rcases s with _ | ⟨a1, s1⟩ <;> rcases t with _ | ⟨d, t1⟩
    · simp [levRef]
    · have ih1 := ih [] t1 (by simp only [List.length_cons, List.length_nil] at h ⊢; omega)
      simp only [List.nil_append, List.cons_append] at ih1 ⊢
      simp only [levRef_nil_left] at ih1
      simp only [levRef, levRef_nil_left, levRef_nil_right]
      rw [ih1]
      simp only [List.length_append, List.length_cons, List.length_nil]
      omega
    · have ih1 := ih s1 [] (by simp only [List.length_cons, List.length_nil] at h ⊢; omega)
      simp only [List.nil_append, List.cons_append] at ih1 ⊢
      simp only [levRef_nil_right] at ih1
      simp only [levRef, levRef_nil_left, levRef_nil_right]
      rw [ih1]
      simp only [List.length_append, List.length_cons, List.length_nil]
      omega
    · have ih1 := ih s1 (d :: t1)
        (by simp only [List.length_cons] at h ⊢; omega)
      have ih2 := ih (a1 :: s1) t1
        (by simp only [List.length_cons] at h ⊢; omega)
      have ih3 := ih s1 t1
        (by simp only [List.length_cons] at h ⊢; omega)
      simp only [List.cons_append] at ih1 ih2 ih3 ⊢
      simp only [levRef]
      rw [ih1, ih2, ih3]
      generalize (if a = b then (0 : ℕ) else 1) = cab
      generalize (if a1 = d then (0 : ℕ) else 1) = cad
      generalize levRef s1 (d :: (t1 ++ [b])) = A1
      generalize levRef (s1 ++ [a]) (d :: t1) = A2
      generalize levRef s1 (d :: t1) = A3
      generalize levRef (a1 :: s1) (t1 ++ [b]) = A4
      generalize levRef (a1 :: (s1 ++ [a])) t1 = A5
      generalize levRef (a1 :: s1) t1 = A6
      generalize levRef s1 (t1 ++ [b]) = A7
      generalize levRef (s1 ++ [a]) t1 = A8
      generalize levRef s1 t1 = A9
      exact minGrid cab cad A1 A2 A3 A4 A5 A6 A7 A8 A9

/-- The inner loop maps the row for `pre` to the row for `pre ++ [c1]`. -/
lemma nextRowAux_spec (c1 : Char) :
    ∀ (rem seen pre : List Char),
      nextRowAux c1 rem (rowSpec pre seen rem) (levRef (pre ++ [c1]) seen) =
        rowTail (pre ++ [c1]) seen rem := by
  intro rem
  induction rem with
  | nil => intro seen pre; simp [rowSpec, rowTail, nextRowAux]
  | cons c2 rest ih =>
    intro seen pre
    simp only [rowSpec, rowTail, nextRowAux]
    have hv :
        min (levRef pre (seen ++ [c2]) + 1)
          (min (levRef (pre ++ [c1]) seen + 1)
            (levRef pre seen + (if c1 = c2 then 0 else 1))) =
          levRef (pre ++ [c1]) (seen ++ [c2]) :=
      (levRef_append c1 c2 (pre.length + seen.length) pre seen le_rfl).symm
    rw [hv]
    exact congrArg _ (ih (seen ++ [c2]) pre)

/-- The outer loop started on the row for `pre` computes the row for
`pre ++ s1`. -/
lemma levLoop_spec (s2 : List Char) :
    ∀ (s1 pre : List Char),
      levLoop s2 s1 pre.length (rowSpec pre [] s2) = rowSpec (pre ++ s1) [] s2 := by
  intro s1
  induction s1 with
  | nil => intro pre; simp [levLoop]
  | cons c1 rest ih =>
    intro pre
    simp only [levLoop, nextRow]
    have h1 : pre.length + 1 = levRef (pre ++ [c1]) [] := by
      simp [levRef_nil_right]
    rw [h1, nextRowAux_spec c1 s2 [] pre]
    have h2 : levRef (pre ++ [c1]) [] :: rowTail (pre ++ [c1]) [] s2 =
        rowSpec (pre ++ [c1]) [] s2 := rfl
    rw [h2]
    have h3 : levRef (pre ++ [c1]) [] = (pre ++ [c1]).length := levRef_nil_right _
    rw [h3, ih (pre ++ [c1])]
    simp

/-- The initial row `range(len(s2) + 1)` is the row for the empty prefix. -/
lemma rowSpec_init : ∀ (rem seen : List Char),
    rowSpec [] seen rem = (List.range (rem.length + 1)).map (fun j => seen.length + j) := by
  intro rem
  induction rem with
  | nil => intro seen; simp [rowSpec, rowTail, levRef_nil_left, List.range_succ]
  | cons c2 rest ih =>
    intro seen
    have h := ih (seen ++ [c2])
    simp only [rowSpec, rowTail] at h ⊢
    rw [h]
    simp only [levRef_nil_left, List.length_append, List.length_cons,
      List.length_nil]
    rw [List.range_succ_eq_map, List.range_succ_eq_map]
    simp only [List.map_cons, List.map_map]
    simp only [List.cons.injEq]
    refine ⟨by omega, ?_⟩
    rw [List.range_succ_eq_map]
    simp only [List.map_cons, List.map_map, List.cons.injEq]
    refine ⟨by simp, ?_⟩
    exact List.map_congr_left fun a _ => by simp only [Function.comp_apply]; omega

/-- The last entry of a row is the distance to the full second string. -/
lemma rowSpec_getLast (pre : List Char) :
    ∀ (rem seen : List Char) (d : ℕ),
      (rowSpec pre seen rem).getLastD d = levRef pre (seen ++ rem) := by
  intro rem
  induction rem with
  | nil => intro seen d; simp [rowSpec, rowTail]
  | cons c2 rest ih =>
    intro seen d
    have h : rowSpec pre seen (c2 :: rest) =
        levRef pre seen :: rowSpec pre (seen ++ [c2]) rest := rfl
    rw [h, List.getLastD_cons, ih (seen ++ [c2]) (levRef pre seen)]
    simp

/-- The DP fallback computes the reference Levenshtein distance. -/
lemma levDP_eq_levRef (s1 s2 : List Char) : levDP s1 s2 = levRef s1 s2 := by
  unfold levDP
  by_cases h2 : s2.length = 0
  · rw [if_pos h2, List.length_eq_zero.mp h2, levRef_nil_right]
  · rw [if_neg h2]
    have h0 : List.range (s2.length + 1) = rowSpec [] [] s2 := by
      rw [rowSpec_init s2 []]
      simp
    rw [h0]
    have h1 := levLoop_spec s2 s1 []
    simp only [List.length_nil, List.nil_append] at h1
    rw [h1, rowSpec_getLast s1 s2 [] 0]
    simp

/-- The reference Levenshtein distance is symmetric. -/
lemma levRef_comm : ∀ (n : ℕ) (s t : List Char), s.length + t.length ≤ n →
    levRef s t = levRef t s := by
  intro n
  induction n with
  | zero =>
    intro s t h
    have hs : s = [] := List.length_eq_zero.mp (by omega)
    have ht : t = [] := List.length_eq_zero.mp (by omega)
    subst hs; subst ht; rfl
  | succ n ih =>
    intro s t h
    rcases s with _ | ⟨a, s1⟩ <;> rcases t with _ | ⟨b, t1⟩
    · rfl
    · rw [levRef_nil_left, levRef_nil_right]
    · rw [levRef_nil_left, levRef_nil_right]
    · have ih1 := ih s1 (b :: t1) (by simp only [List.length_cons] at h ⊢; omega)
      have ih2 := ih (a :: s1) t1 (by simp only [List.length_cons] at h ⊢; omega)
      have ih3 := ih s1 t1 (by simp only [List.length_cons] at h ⊢; omega)
      simp only [levRef]
      rw [ih1, ih2, ih3]
      have hc : (if a = b then 0 else 1) = (if b = a then 0 else 1) := by
        by_cases hab : a = b
        · rw [if_pos hab, if_pos hab.symm]
        · rw [if_neg hab, if_neg (fun hba => hab hba.symm)]
      rw [hc]
      generalize levRef (b :: t1) s1 = B1
      generalize levRef t1 (a :: s1) = B2
      generalize levRef t1 s1 = B3
      generalize (if b = a then (0 : ℕ) else 1) = c
      omega

/-- C8: the edit-distance function used by dictionary correction computes the
classic Levenshtein distance, i.e. it agrees with the reference recursive
Wagner-Fischer definition (minimum number of cost-1 single-character
insertions, deletions and substitutions) on all pairs of strings. -/
theorem C8_levenshtein_is_classic (s1 s2 : String) :
    _levenshtein_distance s1 s2 = levRef s1.data s2.data := by
  unfold _levenshtein_distance
  by_cases h : s1.length < s2.length
  · rw [if_pos h, levDP_eq_levRef]
    exact levRef_comm (s2.data.length + s1.data.length) s2.data s1.data le_rfl
  · rw [if_neg h, levDP_eq_levRef]

example : normalize_arabic (String.mk ['ا', 'ٓ']) = String.mk ['آ'] := by decide

example : normalize_arabic (String.mk ['آ']) = String.mk ['ا'] := by decide

example : normalize_arabic "محكمة" = "محكمة" := by decide

lemma mem_removeAll {c a : Char} {l : List Char} (h : c ∈ removeAll a l) :
    c ∈ l := by
  simp only [removeAll, List.mem_filter] at h
  exact h.1

lemma mem_removeAll_ne {c a : Char} {l : List Char} (h : c ∈ removeAll a l) :
    c ≠ a := by
  simp only [removeAll, List.mem_filter, bne_iff_ne, ne_eq] at h
  exact h.2

lemma mem_replaceAll {c a b : Char} {l : List Char} (h : c ∈ replaceAll a b l) :
    c = b ∨ (c ∈ l ∧ c ≠ a) := by
  simp only [replaceAll, List.mem_map] at h
  obtain ⟨d, hd, hdc⟩ := h
  by_cases hda : d = a
  · rw [if_pos hda] at hdc
    exact Or.inl hdc.symm
  · rw [if_neg hda] at hdc
    subst hdc
    exact Or.inr ⟨hd, hda⟩

lemma removeAll_eq_self {a : Char} {l : List Char} (h : a ∉ l) :
    removeAll a l = l := by
  unfold removeAll
  apply List.filter_eq_self.mpr
  intro d hd
  simp only [bne_iff_ne, ne_eq]
  intro hda
  rw [hda] at hd
  exact h hd

lemma replaceAll_eq_self {a b : Char} {l : List Char} (h : a ∉ l) :
    replaceAll a b l = l := by
  unfold replaceAll
  have hcong : ∀ d ∈ l, (if d = a then b else d) = d := by
    intro d hd
    apply if_neg
    intro hda
    rw [hda] at hd
    exact h hd
  rw [List.map_congr_left hcong]
  simp

/-- Characters surviving the replace chain are either an introduced bare
Alef or input characters, and none of the stripped/folded characters
survive. -/
lemma stripAndFold_mem {c : Char} {l : List Char} (h : c ∈ stripAndFold l) :
    (c = 'ا' ∨ c ∈ l) ∧ c ≠ '​' ∧ c ≠ '‌' ∧ c ≠ '‍' ∧
      c ≠ '‎' ∧ c ≠ '‏' ∧ c ≠ '﻿' ∧ c ≠ 'آ' ∧ c ≠ 'أ' ∧
      c ≠ 'إ' ∧ c ≠ 'ٱ' ∧ c ≠ 'ـ' := by
  simp only [stripAndFold] at h
  have hne11 := mem_removeAll_ne h
  have h10 := mem_removeAll h
  rcases mem_replaceAll h10 with rfl | ⟨h9, hne10⟩
  · exact ⟨Or.inl rfl, by decide, by decide, by decide, by decide, by decide,
      by decide, by decide, by decide, by decide, by decide, by decide⟩
  rcases mem_replaceAll h9 with rfl | ⟨h8, hne9⟩
  · exact ⟨Or.inl rfl, by decide, by decide, by decide, by decide, by decide,
      by decide, by decide, by decide, by decide, by decide, by decide⟩
  rcases mem_replaceAll h8 with rfl | ⟨h7, hne8⟩
  · exact ⟨Or.inl rfl, by decide, by decide, by decide, by decide, by decide,
      by decide, by decide, by decide, by decide, by decide, by decide⟩
  rcases mem_replaceAll h7 with rfl | ⟨h6, hne7⟩
  · exact ⟨Or.inl rfl, by decide, by decide, by decide, by decide, by decide,
      by decide, by decide, by decide, by decide, by decide, by decide⟩
  have hne6 := mem_removeAll_ne h6
  have h5 := mem_removeAll h6
  have hne5 := mem_removeAll_ne h5
  have h4 := mem_removeAll h5
  have hne4 := mem_removeAll_ne h4
  have h3 := mem_removeAll h4
  have hne3 := mem_removeAll_ne h3
  have h2 := mem_removeAll h3
  have hne2 := mem_removeAll_ne h2
  have h1 := mem_removeAll h2
  have hne1 := mem_removeAll_ne h1
  exact ⟨Or.inr (mem_removeAll h1), hne1, hne2, hne3, hne4, hne5, hne6,
    hne7, hne8, hne9, hne10, hne11⟩

/-- If every input character is NFC-inert or one of the folded Alef
variants, every character surviving the replace chain is NFC-inert. -/
lemma stripAndFold_inert {l : List Char}
    (h : ∀ c ∈ l, nfcInert c = true ∨ c = 'آ' ∨ c = 'أ' ∨ c = 'إ') :
    ∀ c ∈ stripAndFold l, nfcInert c = true := by
  intro c hc
  obtain ⟨hor, _, _, _, _, _, _, h7, h8, h9, _, _⟩ := stripAndFold_mem hc
  rcases hor with rfl | hmem
  · decide
  · rcases h c hmem with hi | h622 | h623 | h625
    · exact hi
    · exact absurd h622 h7
    · exact absurd h623 h8
    · exact absurd h625 h9

/-- The replace chain is the identity on lists free of its targets. -/
lemma stripAndFold_eq_self {v : List Char}
    (h1 : '​' ∉ v) (h2 : '‌' ∉ v) (h3 : '‍' ∉ v)
    (h4 : '‎' ∉ v) (h5 : '‏' ∉ v) (h6 : '﻿' ∉ v)
    (h7 : 'آ' ∉ v) (h8 : 'أ' ∉ v) (h9 : 'إ' ∉ v) (h10 : 'ٱ' ∉ v)
    (h11 : 'ـ' ∉ v) : stripAndFold v = v := by
  simp only [stripAndFold]
  rw [removeAll_eq_self h1, removeAll_eq_self h2, removeAll_eq_self h3,
    removeAll_eq_self h4, removeAll_eq_self h5, removeAll_eq_self h6,
    replaceAll_eq_self h7, replaceAll_eq_self h8, replaceAll_eq_self h9,
    replaceAll_eq_self h10, removeAll_eq_self h11]

lemma nfcInert_ccc {c : Char} (h : nfcInert c = true) : ccc c = 0 := by
  simp only [nfcInert, Bool.and_eq_true, beq_iff_eq] at h
  exact h.1

lemma nfcInert_decomp {c : Char} (h : nfcInert c = true) : canonDecomp c = [c] := by
  simp only [nfcInert, Bool.and_eq_true, beq_iff_eq] at h
  exact h.2

lemma flatten_decomp_id {l : List Char} (h : ∀ c ∈ l, nfcInert c = true) :
    (l.map canonDecomp).flatten = l := by
  induction l with
  | nil => rfl
  | cons c rest ih =>
    simp only [List.map_cons, List.flatten_cons]
    rw [nfcInert_decomp (h c (List.mem_cons_self c rest)),
      ih (fun d hd => h d (List.mem_cons_of_mem c hd))]
    rfl

lemma canonicalOrder_id {l : List Char} (h : ∀ c ∈ l, ccc c = 0) :
    canonicalOrder l = l := by
  unfold canonicalOrder
  have haux : ∀ (m : List Char), (∀ c ∈ m, ccc c = 0) → ∀ acc,
      m.foldl (fun acc c => if ccc c = 0 then c :: acc else insertRev c acc) acc =
        m.reverse ++ acc := by
    intro m
    induction m with
    | nil => intro _ acc; simp
    | cons c rest ih =>
      intro hm acc
      simp only [List.foldl_cons]
      rw [if_pos (hm c (List.mem_cons_self c rest)),
        ih (fun d hd => hm d (List.mem_cons_of_mem c hd)) (c :: acc)]
      simp
  rw [haux l h []]
  simp

lemma composeAux_some_inert : ∀ (l : List Char), (∀ c ∈ l, ccc c = 0) →
    ∀ s, composeAux (some s) [] l = s :: l := by
  intro l
  induction l with
  | nil => intro _ s; rfl
  | cons c rest ih =>
    intro h s
    simp only [composeAux]
    rw [if_pos (h c (List.mem_cons_self c rest)),
      ih (fun d hd => h d (List.mem_cons_of_mem c hd)) c]
    rfl

lemma composeAux_none_inert {l : List Char} (h : ∀ c ∈ l, ccc c = 0) :
    composeAux none [] l = l := by
  cases l with
  | nil => rfl
  | cons c rest =>
    simp only [composeAux]
    rw [if_pos (h c (List.mem_cons_self c rest)),
      composeAux_some_inert rest (fun d hd => h d (List.mem_cons_of_mem c hd)) c]
    rfl

/-- The modelled NFC is the identity on NFC-inert text. -/
lemma nfc_inert {l : List Char} (h : ∀ c ∈ l, nfcInert c = true) : nfc l = l := by
  unfold nfc
  have hccc : ∀ c ∈ l, ccc c = 0 := fun c hc => nfcInert_ccc (h c hc)
  rw [flatten_decomp_id h, canonicalOrder_id hccc, composeAux_none_inert hccc]

/-- C3 counterexample: normalization is not idempotent as claimed.  On the
two-character string bare Alef followed by combining madda (U+0627 U+0653),
the final NFC step composes the pair into Alef-with-madda (U+0622), which a
second application folds back to bare Alef, so applying `normalize_arabic`
twice differs from applying it once. -/
theorem C3_normalize_not_idempotent :
    normalize_arabic (normalize_arabic (String.mk ['ا', 'ٓ'])) ≠
      normalize_arabic (String.mk ['ا', 'ٓ']) := by decide

/-- C3 amended: `normalize_arabic` is idempotent on every string whose
characters are NFC-inert (combining class 0 and no canonical decomposition,
which holds for all Arabic letters other than the hamza/madda carriers) or
one of the folded Alef variants; idempotence can only fail when NFC composes
a kept combining mark with a preceding base into a new Alef variant. -/
theorem C3_normalize_idempotent_on_inert (t : String)
    (h : ∀ c ∈ t.data, nfcInert c = true ∨ c = 'آ' ∨ c = 'أ' ∨ c = 'إ') :
    normalize_arabic (normalize_arabic t) = normalize_arabic t := by
  by_cases ht : t = ""
  · rw [ht]; decide
  · have hinert : ∀ c ∈ stripAndFold t.data, nfcInert c = true :=
      stripAndFold_inert h
    have hnfc : nfc (stripAndFold t.data) = stripAndFold t.data :=
      nfc_inert hinert
    have hv : normalize_arabic t = String.mk (stripAndFold t.data) := by
      rw [normalize_arabic, if_neg ht, hnfc]
    rw [hv]
    by_cases hmk : String.mk (stripAndFold t.data) = ""
    · rw [hmk]; decide
    · rw [normalize_arabic, if_neg hmk]
      have hdata : (String.mk (stripAndFold t.data)).data = stripAndFold t.data := rfl
      rw [hdata]
      have hfix : stripAndFold (stripAndFold t.data) = stripAndFold t.data := by
        refine stripAndFold_eq_self ?_ ?_ ?_ ?_ ?_ ?_ ?_ ?_ ?_ ?_ ?_
        · intro hmem; exact (stripAndFold_mem hmem).2.1 rfl
        · intro hmem; exact (stripAndFold_mem hmem).2.2.1 rfl
        · intro hmem; exact (stripAndFold_mem hmem).2.2.2.1 rfl
        · intro hmem; exact (stripAndFold_mem hmem).2.2.2.2.1 rfl
        · intro hmem; exact (stripAndFold_mem hmem).2.2.2.2.2.1 rfl
        · intro hmem; exact (stripAndFold_mem hmem).2.2.2.2.2.2.1 rfl
        · intro hmem; exact (stripAndFold_mem hmem).2.2.2.2.2.2.2.1 rfl
        · intro hmem; exact (stripAndFold_mem hmem).2.2.2.2.2.2.2.2.1 rfl
        · intro hmem; exact (stripAndFold_mem hmem).2.2.2.2.2.2.2.2.2.1 rfl
        · intro hmem; exact (stripAndFold_mem hmem).2.2.2.2.2.2.2.2.2.2.1 rfl
        · intro hmem; exact (stripAndFold_mem hmem).2.2.2.2.2.2.2.2.2.2.2 rfl
      rw [hfix, hnfc]

/-- Witness for C3 amended at a concrete legal-Arabic word containing a
folded Alef variant. -/
theorem C3_normalize_idempotent_on_inert_witness :
    (∀ c ∈ ("إيجار").data, nfcInert c = true ∨ c = 'آ' ∨ c = 'أ' ∨ c = 'إ') ∧
      normalize_arabic (normalize_arabic "إيجار") = normalize_arabic "إيجار" :=
  ⟨by decide, C3_normalize_idempotent_on_inert "إيجار" (by decide)⟩

lemma w2a_not_mem {c : Char} (h : c ∉ westernDigitChars) :
    _WESTERN_TO_ARABIC_INDIC c = c := by
  simp only [westernDigitChars, List.mem_cons, List.not_mem_nil, or_false,
    not_or] at h
  obtain ⟨h0, h1, h2, h3, h4, h5, h6, h7, h8, h9⟩ := h
  simp [_WESTERN_TO_ARABIC_INDIC, h0, h1, h2, h3, h4, h5, h6, h7, h8, h9]

lemma a2w_not_mem {c : Char} (h : c ∉ arabicIndicDigitChars) :
    _ARABIC_INDIC_TO_WESTERN c = c := by
  simp only [arabicIndicDigitChars, List.mem_cons, List.not_mem_nil, or_false,
    not_or] at h
  obtain ⟨h0, h1, h2, h3, h4, h5, h6, h7, h8, h9⟩ := h
  simp [_ARABIC_INDIC_TO_WESTERN, h0, h1, h2, h3, h4, h5, h6, h7, h8, h9]

lemma a2w_w2a {c : Char} (h : c ∉ arabicIndicDigitChars) :
    _ARABIC_INDIC_TO_WESTERN (_WESTERN_TO_ARABIC_INDIC c) = c := by
  by_cases hw : c ∈ westernDigitChars
  · fin_cases hw <;> decide
  · rw [w2a_not_mem hw, a2w_not_mem h]

lemma w2a_a2w {c : Char} (h : c ∉ westernDigitChars) :
    _WESTERN_TO_ARABIC_INDIC (_ARABIC_INDIC_TO_WESTERN c) = c := by
  by_cases ha : c ∈ arabicIndicDigitChars
  · fin_cases ha <;> decide
  · rw [a2w_not_mem ha, w2a_not_mem h]

/-- C6 counterexample: the round-trip is not the identity on every string.
The string consisting of the single Arabic-Indic digit zero is unchanged by
Western-to-Arabic-Indic conversion and by `preserve`, but the final
Arabic-Indic-to-Western conversion maps it to the Western zero. -/
theorem C6_digit_roundtrip_counterexample :
    normalize_digits "western"
        (normalize_digits "preserve" (normalize_digits "arabic_indic" "٠")) ≠ "٠" := by
  decide

/-- C6 amended: `preserve` mode is the identity; the Western-to-Arabic-Indic
then Arabic-Indic-to-Western round-trip (with `preserve` in between) is the
identity on strings containing no Arabic-Indic digit, and the reverse
round-trip on strings containing no Western digit; each direct mode maps the
ten digits of its source set to their exact counterparts and leaves every
other character unchanged. -/
theorem C6_digit_normalization (t : String) :
    normalize_digits "preserve" t = t ∧
    ((∀ c ∈ t.data, c ∉ arabicIndicDigitChars) →
      normalize_digits "western"
        (normalize_digits "preserve" (normalize_digits "arabic_indic" t)) = t) ∧
    ((∀ c ∈ t.data, c ∉ westernDigitChars) →
      normalize_digits "arabic_indic"
        (normalize_digits "preserve" (normalize_digits "western" t)) = t) ∧
    westernDigitChars.map _WESTERN_TO_ARABIC_INDIC = arabicIndicDigitChars ∧
    arabicIndicDigitChars.map _ARABIC_INDIC_TO_WESTERN = westernDigitChars ∧
    (∀ c, c ∉ westernDigitChars → _WESTERN_TO_ARABIC_INDIC c = c) ∧
    (∀ c, c ∉ arabicIndicDigitChars → _ARABIC_INDIC_TO_WESTERN c = c) := by
  have hpres : ∀ (u : String), normalize_digits "preserve" u = u := by
    intro u
    rw [normalize_digits, if_neg (by decide), if_neg (by decide)]
  refine ⟨hpres t, ?_, ?_, by decide, by decide,
    fun c hc => w2a_not_mem hc, fun c hc => a2w_not_mem hc⟩
  · intro h
    rw [show normalize_digits "arabic_indic" t =
        String.mk (t.data.map _WESTERN_TO_ARABIC_INDIC) from by
      rw [normalize_digits, if_pos rfl]]
    rw [hpres]
    rw [show normalize_digits "western" (String.mk (t.data.map _WESTERN_TO_ARABIC_INDIC)) =
        String.mk ((t.data.map _WESTERN_TO_ARABIC_INDIC).map _ARABIC_INDIC_TO_WESTERN) from by
      rw [normalize_digits, if_neg (by decide), if_pos rfl]]
    rw [List.map_map]
    have hcong : ∀ c ∈ t.data,
        (_ARABIC_INDIC_TO_WESTERN ∘ _WESTERN_TO_ARABIC_INDIC) c = c := by
      intro c hc
      exact a2w_w2a (h c hc)
    rw [List.map_congr_left hcong]
    simp
  · intro h
    rw [show normalize_digits "western" t =
        String.mk (t.data.map _ARABIC_INDIC_TO_WESTERN) from by
      rw [normalize_digits, if_neg (by decide), if_pos rfl]]
    rw [hpres]
    rw [show normalize_digits "arabic_indic" (String.mk (t.data.map _ARABIC_INDIC_TO_WESTERN)) =
        String.mk ((t.data.map _ARABIC_INDIC_TO_WESTERN).map _WESTERN_TO_ARABIC_INDIC) from by
      rw [normalize_digits, if_pos rfl]]
    rw [List.map_map]
    have hcong : ∀ c ∈ t.data,
        (_WESTERN_TO_ARABIC_INDIC ∘ _ARABIC_INDIC_TO_WESTERN) c = c := by
      intro c hc
      exact w2a_a2w (h c hc)
    rw [List.map_congr_left hcong]
    simp

/-- Witness for C6 amended at a concrete string with Western digits. -/
theorem C6_digit_normalization_witness :
    (∀ c ∈ ("سنة 2024").data, c ∉ arabicIndicDigitChars) ∧
      normalize_digits "western"
        (normalize_digits "preserve" (normalize_digits "arabic_indic" "سنة 2024")) =
        "سنة 2024" :=
  ⟨by decide, (C6_digit_normalization "سنة 2024").2.1 (by decide)⟩

lemma levRef_self : ∀ (l : List Char), levRef l l = 0 := by
  intro l
  induction l with
  | nil => exact levRef_nil_left []
  | cons a s ih =>
    simp [levRef, ih]

lemma levenshtein_self (x : String) : _levenshtein_distance x x = 0 := by
  unfold _levenshtein_distance
  rw [if_neg (lt_irrefl _), levDP_eq_levRef, levRef_self]

lemma findBestMatch_none {n : String} (ds : List String)
    (h : ∀ d ∈ ds, MAX_LEVENSHTEIN_DISTANCE < _levenshtein_distance n d) :
    findBestMatch n ds = (none, MAX_LEVENSHTEIN_DISTANCE + 1) := by
  unfold findBestMatch
  have haux : ∀ (m : List String) (acc : Option String × ℕ),
      acc.2 ≤ MAX_LEVENSHTEIN_DISTANCE + 1 →
      (∀ d ∈ m, MAX_LEVENSHTEIN_DISTANCE < _levenshtein_distance n d) →
      m.foldl
        (fun acc dict_word =>
          if _levenshtein_distance n dict_word < acc.2 then
            (some dict_word, _levenshtein_distance n dict_word)
          else acc) acc = acc := by
    intro m
    induction m with
    | nil => intro acc _ _; rfl
    | cons d rest ih =>
      intro acc hacc hm
      simp only [List.foldl_cons]
      rw [if_neg (by
        have := hm d (List.mem_cons_self d rest)
        omega)]
      exact ih acc hacc (fun e he => hm e (List.mem_cons_of_mem d he))
  exact haux ds (none, MAX_LEVENSHTEIN_DISTANCE + 1) le_rfl h

/-- C7: with a non-empty dictionary, a word whose normalized form is farther
than `MAX_LEVENSHTEIN_DISTANCE` from every dictionary entry is returned
unchanged, and an already-normalized word that is in the dictionary is
returned unchanged. -/
theorem C7_dictionary_correct_conservative (dictionary : List String)
    (w : String) (hne : dictionary ≠ []) :
    ((∀ d ∈ dictionary,
        MAX_LEVENSHTEIN_DISTANCE < _levenshtein_distance (normalize_arabic w) d) →
      dictionary_correct dictionary w = w) ∧
    ((normalize_arabic w = w ∧ w ∈ dictionary) →
      dictionary_correct dictionary w = w) := by
  constructor
  · intro h
    have hnotmem : normalize_arabic w ∉ dictionary := by
      intro hmem
      have h0 := h (normalize_arabic w) hmem
      rw [levenshtein_self] at h0
      omega
    rw [dictionary_correct, if_neg hne]
    simp only [if_neg hnotmem]
    rw [findBestMatch_none dictionary h]
  · intro ⟨hnorm, hmem⟩
    rw [dictionary_correct, if_neg hne]
    simp only [hnorm, if_pos hmem]

/-- Witness for C7: a dictionary with one entry, a far word returned
unchanged and an in-dictionary word returned unchanged. -/
theorem C7_dictionary_correct_conservative_witness :
    dictionary_correct ["محكمة"] "xyz" = "xyz" ∧
      dictionary_correct ["محكمة"] "محكمة" = "محكمة" :=
  ⟨(C7_dictionary_correct_conservative ["محكمة"] "xyz" (by decide)).1 (by decide),
    (C7_dictionary_correct_conservative ["محكمة"] "محكمة" (by decide)).2
      ⟨by decide, by decide⟩⟩

lemma natCastSum (lines : List OCRLine) :
    (((lines.map (fun l => l.text.length)).sum : ℕ) : ℚ) =
      (lines.map (fun l => (l.text.length : ℚ))).sum := by
  rw [Nat.cast_list_sum, List.map_map]
  rfl

/-- C2: the page confidence is the character-length-weighted mean of the
line confidences, and it is exactly 0 for an empty line list or when the
total character count is 0. -/
theorem C2_page_confidence_weighted_mean (lines : List OCRLine) :
    (lines = [] → _compute_page_confidence lines = 0) ∧
    ((lines.map (fun l => (l.text.length : ℚ))).sum = 0 →
      _compute_page_confidence lines = 0) ∧
    ((lines.map (fun l => (l.text.length : ℚ))).sum ≠ 0 →
      _compute_page_confidence lines =
        (lines.map (fun l => l.confidence * (l.text.length : ℚ))).sum /
          (lines.map (fun l => (l.text.length : ℚ))).sum) := by
  refine ⟨?_, ?_, ?_⟩
  · intro h
    rw [_compute_page_confidence, if_pos h]
  · intro h
    rw [_compute_page_confidence]
    by_cases hnil : lines = []
    · rw [if_pos hnil]
    · rw [if_neg hnil]
      have hz : (lines.map (fun l => l.text.length)).sum = 0 := by
        have hq : (((lines.map (fun l => l.text.length)).sum : ℕ) : ℚ) = 0 := by
          rw [natCastSum]; exact h
        exact_mod_cast hq
      simp [hz]
  · intro h
    have hnat : (lines.map (fun l => l.text.length)).sum ≠ 0 := by
      intro h0
      apply h
      rw [← natCastSum, h0]
      simp
    have hnil : lines ≠ [] := by
      intro h0
      subst h0
      simp at hnat
    rw [_compute_page_confidence, if_neg hnil]
    simp only [if_neg hnat]
    rw [natCastSum]

/-- Witness for C2 at the empty list and at a concrete two-line page. -/
theorem C2_page_confidence_weighted_mean_witness :
    _compute_page_confidence [] = 0 ∧
    _compute_page_confidence [⟨[], "ab", 1⟩, ⟨[], "abcdef", 1 / 2⟩] =
      (([⟨[], "ab", 1⟩, ⟨[], "abcdef", 1 / 2⟩] : List OCRLine).map
          (fun l => l.confidence * (l.text.length : ℚ))).sum /
        (([⟨[], "ab", 1⟩, ⟨[], "abcdef", 1 / 2⟩] : List OCRLine).map
          (fun l => (l.text.length : ℚ))).sum :=
  ⟨(C2_page_confidence_weighted_mean []).1 rfl,
    (C2_page_confidence_weighted_mean _).2.2 (by
      norm_num [show ("ab").length = 2 from rfl, show ("abcdef").length = 6 from rfl])⟩

/-- C4 counterexample: the merge condition is not "the preceding line's last
character is a joining character".  With a first line whose literal last
character is a space (after a joining letter), the code still merges the
two lines, because it tests the last character of the rstripped text. -/
theorem C4_merge_counterexample :
    (merge_split_lines [⟨[], "ب ", 1⟩, ⟨[], "x", 1⟩]).length = 1 ∧
      ("ب ").back ∉ connecting_chars := by decide

/-- C4 amended: a pair of adjacent lines is merged if and only if the
rstripped preceding text is non-empty with its last character in the fixed
joining set and the lstripped following text is non-empty; the merged line
concatenates the stripped texts with no inserted space, concatenates the
word lists, and takes the arithmetic mean of the two confidences. -/
theorem C4_merge_characterization (cur l : OCRLine) (ls : List OCRLine) :
    merge_split_lines [] = [] ∧
    (∀ x : OCRLine, merge_split_lines [x] = [x]) ∧
    (∀ (x y : OCRLine) (ys : List OCRLine),
      merge_split_lines (x :: y :: ys) = mergeAux x (y :: ys)) ∧
    ((pyRstrip cur.text ≠ "" ∧ pyLstrip l.text ≠ "" ∧
        (pyRstrip cur.text).data.getLastD ' ' ∈ connecting_chars) →
      mergeAux cur (l :: ls) =
        mergeAux ⟨cur.words ++ l.words, pyRstrip cur.text ++ pyLstrip l.text,
          (cur.confidence + l.confidence) / 2⟩ ls) ∧
    (¬(pyRstrip cur.text ≠ "" ∧ pyLstrip l.text ≠ "" ∧
        (pyRstrip cur.text).data.getLastD ' ' ∈ connecting_chars) →
      mergeAux cur (l :: ls) = cur :: mergeAux l ls) := by
  refine ⟨rfl, fun x => rfl, fun x y ys => rfl, ?_, ?_⟩
  · intro h
    show mergeAux cur (l :: ls) = mergeAux (mergedLine cur l) ls
    simp only [mergeAux]
    rw [if_pos (by exact decide_eq_true h)]
  · intro h
    simp only [mergeAux]
    rw [if_neg (by
      intro hb
      exact h (of_decide_eq_true hb))]

/-- Witness for C4 amended: one merging pair and one non-merging pair. -/
theorem C4_merge_characterization_witness :
    mergeAux ⟨[], "ب", 1⟩ [⟨[], "x", 1⟩] =
      mergeAux ⟨([] : List OCRWord) ++ [], pyRstrip "ب" ++ pyLstrip "x",
        ((1 : ℚ) + 1) / 2⟩ [] ∧
    mergeAux ⟨[], "ب.", 1⟩ [⟨[], "x", 1⟩] =
      ⟨[], "ب.", 1⟩ :: mergeAux ⟨[], "x", 1⟩ [] :=
  ⟨(C4_merge_characterization ⟨[], "ب", 1⟩ ⟨[], "x", 1⟩ []).2.2.2.1 (by decide),
    (C4_merge_characterization ⟨[], "ب.", 1⟩ ⟨[], "x", 1⟩ []).2.2.2.2 (by decide)⟩

/-- C9: the per-page correction chain preserves page_number, confidence,
warnings and has_errors; only lines and raw_text are recomputed (in
particular the page confidence is not recomputed after merges). -/
theorem C9_postprocess_page_frame (dictionary : List String)
    (page : OCRPageResult) :
    (postprocess_page dictionary page).page_number = page.page_number ∧
    (postprocess_page dictionary page).confidence = page.confidence ∧
    (postprocess_page dictionary page).warnings = page.warnings ∧
    (postprocess_page dictionary page).has_errors = page.has_errors :=
  ⟨rfl, rfl, rfl, rfl⟩

lemma mem_firstLines {pages : List OCRPageResult} {page : OCRPageResult}
    (hmem : page ∈ pages) {l : OCRLine} {rest : List OCRLine}
    (hl : page.lines = l :: rest) : pyStrip l.text ∈ firstLines pages := by
  apply List.mem_filterMap.mpr
  exact ⟨page, hmem, by rw [hl]; rfl⟩

lemma mem_lastLines {pages : List OCRPageResult} {page : OCRPageResult}
    (hmem : page ∈ pages) (h : page.lines ≠ []) :
    pyStrip ((page.lines.getLast h).text) ∈ lastLines pages := by
  apply List.mem_filterMap.mpr
  refine ⟨page, hmem, ?_⟩
  rw [List.getLast?_eq_getLast page.lines h]
  rfl

lemma removeHeader_id_of_not_any {pages : List OCRPageResult}
    (hany : (firstLines pages).any (repeatedHeader pages) = false)
    {page : OCRPageResult} (hmem : page ∈ pages) :
    removeHeader (repeatedHeader pages) page.lines = page.lines := by
  cases hl : page.lines with
  | nil => rfl
  | cons l rest =>
    have hfalse := List.any_eq_false.mp hany _ (mem_firstLines hmem hl)
    simp [removeHeader, hfalse]

lemma removeFooter_id_of_not_any {pages : List OCRPageResult}
    (hany : (lastLines pages).any (repeatedFooter pages) = false)
    {page : OCRPageResult} (hmem : page ∈ pages) :
    removeFooter (repeatedFooter pages) page.lines = page.lines := by
  by_cases h : page.lines = []
  · rw [h]; rfl
  · have hfalse := List.any_eq_false.mp hany _ (mem_lastLines hmem h)
    unfold removeFooter
    rw [List.getLast?_eq_getLast page.lines h]
    simp [hfalse]

lemma ppd_length (pages : List OCRPageResult) :
    (postprocess_document_pages pages).length = pages.length := by
  unfold postprocess_document_pages
  split_ifs <;> simp

lemma ppd_lines (pages : List OCRPageResult) (h3 : 3 ≤ pages.length)
    (i : ℕ) (hi : i < pages.length) :
    ((postprocess_document_pages pages)[i]?).map OCRPageResult.lines =
      some (removeFooter (repeatedFooter pages)
        (removeHeader (repeatedHeader pages) ((pages.get ⟨i, hi⟩).lines))) := by
  unfold postprocess_document_pages
  rw [if_neg (by omega)]
  by_cases hearly : (firstLines pages).any (repeatedHeader pages) = false ∧
      (lastLines pages).any (repeatedFooter pages) = false
  · rw [if_pos hearly]
    rw [List.getElem?_eq_getElem hi]
    have hmem : pages.get ⟨i, hi⟩ ∈ pages := pages.get_mem i hi
    rw [show pages[i] = pages.get ⟨i, hi⟩ from rfl]
    simp only [Option.map_some']
    rw [removeHeader_id_of_not_any hearly.1 hmem,
      removeFooter_id_of_not_any hearly.2 hmem]
  · rw [if_neg hearly]
    rw [List.getElem?_map, List.getElem?_eq_getElem hi]
    rfl

/-- C5: documents with fewer than 3 pages are returned unchanged; the output
has one page per input page; a value is a repeated header/footer only if it
is non-empty and occurs as a stripped first/last line on strictly more than
50 percent of the pages; header/footer removal either leaves a page's lines
unchanged or drops exactly the first/last line, and only when that line's
stripped text satisfies the repeated-value predicate; and for documents with
at least 3 pages each output page's lines are exactly the input lines after
one header-removal and one footer-removal pass. -/
theorem C5_header_footer_removal (pages : List OCRPageResult) :
    (pages.length < 3 → postprocess_document_pages pages = pages) ∧
    (postprocess_document_pages pages).length = pages.length ∧
    (∀ t : String, repeatedHeader pages t = true →
      t ≠ "" ∧ ((firstLines pages).count t : ℚ) > (pages.length : ℚ) / 2) ∧
    (∀ t : String, repeatedFooter pages t = true →
      t ≠ "" ∧ ((lastLines pages).count t : ℚ) > (pages.length : ℚ) / 2) ∧
    (∀ (p : String → Bool) (lines : List OCRLine),
      removeHeader p lines = lines ∨
        ∃ h : lines ≠ [], p (pyStrip ((lines.head h).text)) = true ∧
          removeHeader p lines = lines.tail) ∧
    (∀ (p : String → Bool) (lines : List OCRLine),
      removeFooter p lines = lines ∨
        ∃ h : lines ≠ [], p (pyStrip ((lines.getLast h).text)) = true ∧
          removeFooter p lines = lines.dropLast) ∧
    (3 ≤ pages.length → ∀ (i : ℕ) (hi : i < pages.length),
      ((postprocess_document_pages pages)[i]?).map OCRPageResult.lines =
        some (removeFooter (repeatedFooter pages)
          (removeHeader (repeatedHeader pages) ((pages.get ⟨i, hi⟩).lines)))) := by
  refine ⟨?_, ppd_length pages, ?_, ?_, ?_, ?_, fun h3 i hi => ppd_lines pages h3 i hi⟩
  · intro h
    rw [postprocess_document_pages, if_pos h]
  · intro t ht
    have := of_decide_eq_true ht
    exact ⟨this.2, this.1⟩
  · intro t ht
    have := of_decide_eq_true ht
    exact ⟨this.2, this.1⟩
  · intro p lines
    cases lines with
    | nil => exact Or.inl rfl
    | cons l rest =>
      by_cases hp : p (pyStrip l.text) = true
      · exact Or.inr ⟨List.cons_ne_nil l rest, hp, by simp [removeHeader, hp]⟩
      · left
        simp only [removeHeader]
        rw [if_neg (by simp [hp])]
  · intro p lines
    by_cases hnil : lines = []
    · subst hnil
      exact Or.inl rfl
    · by_cases hp : p (pyStrip ((lines.getLast hnil).text)) = true
      · refine Or.inr ⟨hnil, hp, ?_⟩
        unfold removeFooter
        rw [List.getLast?_eq_getLast lines hnil]
        simp [hp]
      · left
        unfold removeFooter
        rw [List.getLast?_eq_getLast lines hnil]
        simp [hp]

lemma repeatedHeader_empty (pages : List OCRPageResult) :
    repeatedHeader pages "" = false := by
  simp [repeatedHeader, isRepeatedIn]

lemma repeatedFooter_empty (pages : List OCRPageResult) :
    repeatedFooter pages "" = false := by
  simp [repeatedFooter, isRepeatedIn]

lemma removeHeader_cases (p : String → Bool) (lines : List OCRLine) :
    removeHeader p lines = lines ∨
      ∃ h : lines ≠ [], p (pyStrip ((lines.head h).text)) = true ∧
        removeHeader p lines = lines.tail := by
  cases lines with
  | nil => exact Or.inl rfl
  | cons l rest =>
    by_cases hp : p (pyStrip l.text) = true
    · exact Or.inr ⟨List.cons_ne_nil l rest, hp, by simp [removeHeader, hp]⟩
    · left
      simp only [removeHeader]
      rw [if_neg (by simp [hp])]

lemma removeFooter_cases (p : String → Bool) (lines : List OCRLine) :
    removeFooter p lines = lines ∨
      ∃ h : lines ≠ [], p (pyStrip ((lines.getLast h).text)) = true ∧
        removeFooter p lines = lines.dropLast := by
  by_cases hnil : lines = []
  · subst hnil
    exact Or.inl rfl
  · by_cases hp : p (pyStrip ((lines.getLast hnil).text)) = true
    · refine Or.inr ⟨hnil, hp, ?_⟩
      unfold removeFooter
      rw [List.getLast?_eq_getLast lines hnil]
      simp [hp]
    · left
      unfold removeFooter
      rw [List.getLast?_eq_getLast lines hnil]
      simp [hp]

lemma removeHeader_id_of_empty_strip {p : String → Bool} {lines : List OCRLine}
    (hne : lines ≠ []) (hp : p (pyStrip ((lines.head hne).text)) = false) :
    removeHeader p lines = lines := by
  rcases removeHeader_cases p lines with h | ⟨h, hcond, _⟩
  · exact h
  · rw [hp] at hcond
    exact absurd hcond (by simp)

lemma removeFooter_id_of_empty_strip {p : String → Bool} {lines : List OCRLine}
    (hne : lines ≠ []) (hp : p (pyStrip ((lines.getLast hne).text)) = false) :
    removeFooter p lines = lines := by
  rcases removeFooter_cases p lines with h | ⟨h, hcond, _⟩
  · exact h
  · rw [hp] at hcond
    exact absurd hcond (by simp)

/-- C10: an empty stripped value is never classified as a repeated header or
footer: a page whose first (resp. last) line strips to the empty string
keeps that line at its end of the page through document-level cleanup. -/
theorem C10_empty_value_never_removed (pages : List OCRPageResult) (i : ℕ)
    (hi : i < pages.length) (hne : (pages.get ⟨i, hi⟩).lines ≠ []) :
    (pyStrip (((pages.get ⟨i, hi⟩).lines.head hne).text) = "" →
      ((postprocess_document_pages pages)[i]?).map (fun q => q.lines.head?) =
        some (some ((pages.get ⟨i, hi⟩).lines.head hne))) ∧
    (pyStrip (((pages.get ⟨i, hi⟩).lines.getLast hne).text) = "" →
      ((postprocess_document_pages pages)[i]?).map (fun q => q.lines.getLast?) =
        some (some ((pages.get ⟨i, hi⟩).lines.getLast hne))) := by
  by_cases h3 : pages.length < 3
  · have hppd : postprocess_document_pages pages = pages := by
      rw [postprocess_document_pages, if_pos h3]
    constructor
    · intro _
      rw [hppd, List.getElem?_eq_getElem hi]
      simp only [Option.map_some']
      rw [show pages[i] = pages.get ⟨i, hi⟩ from rfl]
      rw [List.head?_eq_head hne]
    · intro _
      rw [hppd, List.getElem?_eq_getElem hi]
      simp only [Option.map_some']
      rw [show pages[i] = pages.get ⟨i, hi⟩ from rfl]
      rw [List.getLast?_eq_getLast _ hne]
  · have h3' : 3 ≤ pages.length := by omega
    have hl := ppd_lines pages h3' i hi
    obtain ⟨l, rest, hlines⟩ := List.exists_cons_of_ne_nil hne
    have hhd : (pages.get ⟨i, hi⟩).lines.head hne = l := by
      have e1 : (pages.get ⟨i, hi⟩).lines.head? = some l := by rw [hlines]; rfl
      rw [List.head?_eq_head hne] at e1
      exact Option.some.inj e1
    cases hq : (postprocess_document_pages pages)[i]? with
    | none => rw [hq] at hl; simp at hl
    | some q =>
      rw [hq] at hl
      have hql : q.lines = removeFooter (repeatedFooter pages)
          (removeHeader (repeatedHeader pages) ((pages.get ⟨i, hi⟩).lines)) := by
        simpa using hl
      constructor
      · intro hstrip
        have hhdr : repeatedHeader pages
            (pyStrip (((pages.get ⟨i, hi⟩).lines.head hne).text)) = false := by
          rw [hstrip]; exact repeatedHeader_empty pages
        rw [removeHeader_id_of_empty_strip hne hhdr] at hql
        rcases removeFooter_cases (repeatedFooter pages)
            ((pages.get ⟨i, hi⟩).lines) with hRF | ⟨h2, hcond, hRF⟩
        · rw [hRF] at hql
          simp only [Option.map_some']
          rw [hql, List.head?_eq_head hne]
        · cases rest with
          | nil =>
            exfalso
            have hgl : (pages.get ⟨i, hi⟩).lines.getLast h2 = l := by
              have e1 : (pages.get ⟨i, hi⟩).lines.getLast? = some l := by
                rw [hlines]; rfl
              rw [List.getLast?_eq_getLast _ h2] at e1
              exact Option.some.inj e1
            rw [hgl] at hcond
            rw [hhd] at hstrip
            rw [hstrip, repeatedFooter_empty] at hcond
            exact absurd hcond (by simp)
          | cons r rs =>
            rw [hRF, hlines] at hql
            simp only [Option.map_some']
            rw [hql, hhd]
            simp
      · intro hstrip
        have hftr : repeatedFooter pages
            (pyStrip (((pages.get ⟨i, hi⟩).lines.getLast hne).text)) = false := by
          rw [hstrip]; exact repeatedFooter_empty pages
        rcases removeHeader_cases (repeatedHeader pages)
            ((pages.get ⟨i, hi⟩).lines) with hRH | ⟨hh, hhcond, hRH⟩
        · rw [hRH, removeFooter_id_of_empty_strip hne hftr] at hql
          simp only [Option.map_some']
          rw [hql, List.getLast?_eq_getLast _ hne]
        · cases rest with
          | nil =>
            exfalso
            have hgl : (pages.get ⟨i, hi⟩).lines.getLast hne = l := by
              have e1 : (pages.get ⟨i, hi⟩).lines.getLast? = some l := by
                rw [hlines]; rfl
              rw [List.getLast?_eq_getLast _ hne] at e1
              exact Option.some.inj e1
            have hhh : (pages.get ⟨i, hi⟩).lines.head hh = l := by
              have e1 : (pages.get ⟨i, hi⟩).lines.head? = some l := by
                rw [hlines]; rfl
              rw [List.head?_eq_head hh] at e1
              exact Option.some.inj e1
            rw [hhh] at hhcond
            rw [hgl] at hstrip
            rw [hstrip, repeatedHeader_empty] at hhcond
            exact absurd hhcond (by simp)
          | cons r rs =>
            rw [hlines] at hRH hql
            simp only [List.tail_cons] at hRH
            rw [hRH] at hql
            have hgl : (pages.get ⟨i, hi⟩).lines.getLast hne =
                (r :: rs).getLast (List.cons_ne_nil r rs) := by
              have e1 : (pages.get ⟨i, hi⟩).lines.getLast? =
                  (r :: rs).getLast? := by rw [hlines]; rfl
              rw [List.getLast?_eq_getLast _ hne,
                List.getLast?_eq_getLast _ (List.cons_ne_nil r rs)] at e1
              exact Option.some.inj e1
            rw [hgl] at hstrip
            have hftr2 : repeatedFooter pages
                (pyStrip (((r :: rs).getLast (List.cons_ne_nil r rs)).text)) = false := by
              rw [hstrip]; exact repeatedFooter_empty pages
            rw [removeFooter_id_of_empty_strip (List.cons_ne_nil r rs) hftr2] at hql
            simp only [Option.map_some']
            rw [hql, List.getLast?_eq_getLast _ (List.cons_ne_nil r rs), hgl]

/-- Witness for C5 at a concrete three-page document. -/
theorem C5_header_footer_removal_witness :
    ((postprocess_document_pages examplePagesC5)[0]?).map OCRPageResult.lines =
      some (removeFooter (repeatedFooter examplePagesC5)
        (removeHeader (repeatedHeader examplePagesC5)
          ((examplePagesC5.get ⟨0, by decide⟩).lines))) :=
  (C5_header_footer_removal examplePagesC5).2.2.2.2.2.2 (by decide) 0 (by decide)

/-- Witness for C10: the whitespace-only first line is kept even though it
recurs on every page. -/
theorem C10_empty_value_never_removed_witness :
    ((postprocess_document_pages examplePagesC10)[0]?).map (fun q => q.lines.head?) =
      some (some ((examplePagesC10.get ⟨0, by decide⟩).lines.head (by decide))) :=
  (C10_empty_value_never_removed examplePagesC10 0 (by decide) (by decide)).1 (by decide)

/-- C1: the live entry point `SuryaOCREngine.process` contains no per-page
try/except, so an exception raised by a predictor aborts the whole batch,
while the per-page containment the claim describes is implemented by
`_process_batch`/`_process_single_image` (no longer called from `process`):
there an exception yields an error page with `has_errors = true` and the
error text, empty detection or recognition yields an empty page with a
descriptive warning and `has_errors = false`, and the batch continues with
the next page. -/
theorem C1_process_aborts_but_process_batch_contains :
    SuryaOCREngine_process (.error "boom") (.ok []) = .error "boom" ∧
    _process_batch [⟨.error "boom", .ok []⟩] 0 =
      [⟨1, [], "", 0, ["OCR engine error: boom"], true⟩] ∧
    _process_batch [⟨.ok [], .ok []⟩] 0 =
      [⟨1, [], "", 0, ["No text detected on page"], false⟩] ∧
    _process_batch [⟨.ok [⟨[⟨[0, 0, 1, 1]⟩]⟩], .ok [⟨[]⟩]⟩] 0 =
      [⟨1, [], "", 0, ["Recognition produced no text"], false⟩] ∧
    _process_batch [⟨.error "boom", .ok []⟩, ⟨.ok [], .ok []⟩] 0 =
      [⟨1, [], "", 0, ["OCR engine error: boom"], true⟩,
       ⟨2, [], "", 0, ["No text detected on page"], false⟩] :=
  ⟨rfl, rfl, rfl, rfl, rfl⟩
